import Mathlib

/-!
Verification of the logical-property derivation subsystem (functional
dependencies and interesting orderings) of the optimizer, together with the
ALTER TYPE ADD VALUE formatter and the external settings registry exercised by
the repository's tests.
-/

namespace OptProps

/-- A column is an opaque numeric identifier, unique within one query. -/
abbrev Column := Nat

/-- An unordered set of columns with value semantics. -/
abbrev ColumnSet := Finset Nat

/-- Modelled from the spec: the functional-dependency record of the missing
FD-set implementation (`Dependency`): a determinant column set, a dependent
column set, and whether the dependency is strict (holds for every row
including NULLs) or lax (holds only among rows where the determinant is fully
non-null). -/
structure Dep where
  det : ColumnSet
  dep : ColumnSet
  strict : Bool
deriving DecidableEq

/-- Modelled from the spec: the missing `FDSet` type: a set of dependencies
plus registered equivalences between pairs of columns (columns proven always
equal by equality predicates). -/
structure FDSet where
  deps : List Dep
  eqs : List (Column × Column)
deriving DecidableEq

/-- Union of a family of column sets indexed by a list. -/
def unionFold (f : α → ColumnSet) (l : List α) : ColumnSet :=
  l.foldl (fun acc x => acc ∪ f x) ∅

/-- Columns contributed by one equivalence pair to a growing closure. -/
def eqHit (p : Column × Column) (s : ColumnSet) : ColumnSet :=
  (if p.1 ∈ s then {p.2} else ∅) ∪ (if p.2 ∈ s then {p.1} else ∅)

/-- Modelled from the spec: one round of the missing closure computation:
apply every dependency in `l` whose determinant is covered, and substitute
across every registered equivalence. -/
def closureStep (l : List Dep) (eqs : List (Column × Column)) (s : ColumnSet) :
    ColumnSet :=
  (s ∪ unionFold (fun d => if d.det ⊆ s then d.dep else ∅) l) ∪
    unionFold (fun p => eqHit p s) eqs

/-- Modelled from the spec: the fixed-point iteration of the missing closure
computation, with the spec's short-circuit once an iteration stops growing
the result. -/
def closureAux (l : List Dep) (eqs : List (Column × Column)) :
    Nat → ColumnSet → ColumnSet
  | 0, s => s
  | n + 1, s =>
    let s' := closureStep l eqs s
    if s' = s then s else closureAux l eqs n s'

/-- All columns mentioned anywhere in an FD set. -/
def fdCols (fd : FDSet) : ColumnSet :=
  unionFold (fun d => d.det ∪ d.dep) fd.deps ∪
    unionFold (fun p => {p.1, p.2}) fd.eqs

/-- Iteration budget: the closure can only grow inside the columns the FD set
mentions, so this many rounds always reach the fixed point. -/
def fdFuel (fd : FDSet) : Nat := (fdCols fd).card + 1

/-- Modelled from the spec: the missing `closure(cols)` operation — the
maximal column set functionally determined by `cols`, via fixed-point
application of the strict dependencies and equivalence substitution. -/
def closure (fd : FDSet) (s : ColumnSet) : ColumnSet :=
  closureAux (fd.deps.filter (fun d => d.strict)) fd.eqs (fdFuel fd) s

/-- Modelled from the spec: the lax variant of the closure, in which lax
dependencies also fire; used for lax-key detection (e.g. a UNIQUE index that
permits NULLs). -/
def laxClosure (fd : FDSet) (s : ColumnSet) : ColumnSet :=
  closureAux fd.deps fd.eqs (fdFuel fd) s

section ClosureLemmas

theorem unionFold_subset_unionFold (f g : α → ColumnSet) (l : List α)
    (h : ∀ x ∈ l, f x ⊆ g x) (s t : ColumnSet) (hst : s ⊆ t) :
    l.foldl (fun acc x => acc ∪ f x) s ⊆ l.foldl (fun acc x => acc ∪ g x) t := by
  induction l generalizing s t with
  | nil => simpa using hst
  | cons a l ih =>
      simp only [List.foldl_cons]
      exact ih (fun x hx => h x (List.mem_cons_of_mem a hx)) _ _
        (Finset.union_subset_union hst (h a (List.mem_cons_self a l)))

theorem unionFold_mono (f g : α → ColumnSet) (l : List α)
    (h : ∀ x ∈ l, f x ⊆ g x) : unionFold f l ⊆ unionFold g l :=
  unionFold_subset_unionFold f g l h ∅ ∅ (by simp)

theorem eqHit_mono (p : Column × Column) {s t : ColumnSet} (h : s ⊆ t) :
    eqHit p s ⊆ eqHit p t := by
  unfold eqHit
  apply Finset.union_subset_union
  · by_cases h1 : p.1 ∈ s
    · rw [if_pos h1, if_pos (h h1)]
    · rw [if_neg h1]; simp
  · by_cases h2 : p.2 ∈ s
    · rw [if_pos h2, if_pos (h h2)]
    · rw [if_neg h2]; simp

theorem closureStep_mono (l : List Dep) (eqs : List (Column × Column))
    {s t : ColumnSet} (h : s ⊆ t) : closureStep l eqs s ⊆ closureStep l eqs t := by
  unfold closureStep
  apply Finset.union_subset_union
  · apply Finset.union_subset_union h
    apply unionFold_mono
    intro d _
    split
    · split
      · exact Finset.Subset.refl _
      · exact absurd (Finset.Subset.trans (by assumption) h) (by assumption)
    · simp
  · exact unionFold_mono _ _ _ (fun p _ => eqHit_mono p h)

theorem closureAux_eq_iterate (l : List Dep) (eqs : List (Column × Column))
    (n : Nat) (s : ColumnSet) :
    closureAux l eqs n s = (closureStep l eqs)^[n] s := by
  induction n generalizing s with
  | zero => rfl
  | succ n ih =>
      unfold closureAux
      by_cases h : closureStep l eqs s = s
      · simp only [h, if_pos rfl]
        exact (Function.iterate_fixed h (n + 1)).symm
      · simp only [if_neg h]
        rw [ih, Function.iterate_succ_apply]

theorem iterate_closureStep_mono (l : List Dep) (eqs : List (Column × Column))
    (n : Nat) {s t : ColumnSet} (h : s ⊆ t) :
    (closureStep l eqs)^[n] s ⊆ (closureStep l eqs)^[n] t := by
  induction n generalizing s t with
  | zero => simpa using h
  | succ n ih =>
      rw [Function.iterate_succ_apply, Function.iterate_succ_apply]
      exact ih (closureStep_mono l eqs h)

end ClosureLemmas

/-- One component of a physical sort order: a column and a direction
(ascending when `asc` is true). -/
structure OrderingCol where
  col : Column
  asc : Bool
deriving DecidableEq

/-- An ordered sequence of (column, direction) pairs describing one physical
sort order. -/
abbrev Ordering := List OrderingCol

/-- A collection of orderings considered useful to expose to ancestors. -/
abbrev OrderingSet := List Ordering

/-- The equivalence class of a column: every column reachable from it through
the registered equivalences. -/
def equivClass (fd : FDSet) (c : Column) : ColumnSet :=
  closureAux [] fd.eqs (fdFuel fd) {c}

/-- Canonical representative of a column's equivalence class (its smallest
member). -/
def rep (fd : FDSet) (c : Column) : Column :=
  WithBot.unbot' c (equivClass fd c).min

/-- Modelled from the spec: the ordering simplification used by the missing
OrderingSet deduplication — map each column to its equivalence representative
and elide columns already implied (via the strict closure, which includes
constant columns) by the columns retained before them. -/
def simplifyOrdAux (fd : FDSet) : ColumnSet → Ordering → Ordering
  | _, [] => []
  | acc, oc :: rest =>
    let c := rep fd oc.col
    if c ∈ closure fd acc then simplifyOrdAux fd acc rest
    else ⟨c, oc.asc⟩ :: simplifyOrdAux fd (insert c acc) rest

/-- Simplification of a whole ordering, starting from no retained columns. -/
def simplifyOrd (fd : FDSet) (o : Ordering) : Ordering := simplifyOrdAux fd ∅ o

/-- Whether the first sequence is an initial segment of the second, i.e. its
columns all appear in the second at the same relative ranks. -/
def leadsList : Ordering → Ordering → Bool
  | [], _ => true
  | _ :: _, [] => false
  | x :: xs, y :: ys => if x = y then leadsList xs ys else false

/-- Modelled from the spec: the missing subsumption test of the OrderingSet —
ordering `b` is subsumed by ordering `a` if, after eliding FD-implied and
constant columns from both, every column of `b` appears in `a` at the same
relative rank. -/
def subsumed (fd : FDSet) (b a : Ordering) : Bool :=
  leadsList (simplifyOrd fd b) (simplifyOrd fd a)

/-- Modelled from the spec: adding one ordering to a deduplicated
OrderingSet — skipped if subsumed by a retained ordering (ties keep the
ordering discovered earlier), and any retained ordering it subsumes is
dropped in its favor. -/
def addOrd (fd : FDSet) (acc : OrderingSet) (o : Ordering) : OrderingSet :=
  if acc.any (fun r => subsumed fd o r) then acc
  else acc.filter (fun r => !(subsumed fd r o)) ++ [o]

/-- Modelled from the spec: the missing deduplication of candidate
orderings, applied by every derivation rule in the fixed bottom-up traversal
order. -/
def dedupOrderings (fd : FDSet) (ords : OrderingSet) : OrderingSet :=
  ords.foldl (addOrd fd) []

/-- No two retained orderings where one is subsumed by the other. -/
def NonRedundant (fd : FDSet) (l : OrderingSet) : Prop :=
  List.Pairwise (fun a b => subsumed fd a b = false ∧ subsumed fd b a = false) l

theorem addOrd_nonredundant (fd : FDSet) (acc : OrderingSet) (o : Ordering)
    (h : NonRedundant fd acc) : NonRedundant fd (addOrd fd acc o) := by
  unfold addOrd
  split
  · exact h
  · rename_i hany
    rw [List.any_eq_true] at hany
    push_neg at hany
    rw [NonRedundant, List.pairwise_append]
    refine ⟨h.filter _, List.pairwise_singleton _ _, ?_⟩
    intro a ha b hb
    rw [List.mem_singleton] at hb
    subst hb
    rw [List.mem_filter] at ha
    refine ⟨by simpa using ha.2, ?_⟩
    have := hany a ha.1
    simpa using this

theorem dedupOrderings_nonredundant (fd : FDSet) (ords : OrderingSet) :
    NonRedundant fd (dedupOrderings fd ords) := by
  unfold dedupOrderings
  have h : ∀ acc, NonRedundant fd acc → NonRedundant fd (ords.foldl (addOrd fd) acc) := by
    induction ords with
    | nil => intro acc h; exact h
    | cons o rest ih => intro acc h; exact ih _ (addOrd_nonredundant fd acc o h)
  exact h [] List.Pairwise.nil

/-- An available index: an ordered sequence of (column, direction) pairs, a
uniqueness flag, and nullability of its key columns. -/
structure IndexDef where
  cols : List OrderingCol
  unique : Bool
  nullable : Bool
deriving DecidableEq

/-- Metadata a Scan consumes: its visible output columns, the available
indexes, and the distinguishing row-identifier column when it is part of the
scanned output. -/
structure TableDef where
  cols : ColumnSet
  indexes : List IndexDef
  rowid : Option Column
deriving DecidableEq

/-- The key reported for a relation: none, a lax key, or a strict key. -/
inductive KeyInfo where
  | noKey
  | laxKey (cols : ColumnSet)
  | strictKey (cols : ColumnSet)
deriving DecidableEq

/-- The cached logical properties of one relational node. -/
structure RelProps where
  outputCols : ColumnSet
  fd : FDSet
  key : KeyInfo
  orderings : OrderingSet
deriving DecidableEq

/-- Modelled from the spec: the missing key derivation — a strict key is a
determinant whose strict closure covers the whole output; failing that, the
full output set is reported as a lax key when some determinant's lax closure
covers the output (e.g. a UNIQUE index that permits NULLs). -/
def deriveKey (fd : FDSet) (cols : ColumnSet) : KeyInfo :=
  match fd.deps.find? (fun d =>
      d.strict && decide (d.det ⊆ cols ∧ cols ⊆ closure fd d.det)) with
  | some d => .strictKey d.det
  | none =>
    match fd.deps.find? (fun d =>
        decide (d.det ⊆ cols ∧ cols ⊆ laxClosure fd d.det)) with
    | some _ => .laxKey cols
    | none => .noKey

/-- Modelled from the spec: the missing Scan FD derivation — every unique
index whose columns are visible contributes a dependency from its column set
to the remaining output columns, strict when the index columns are
non-nullable and lax otherwise. -/
def scanFD (t : TableDef) : FDSet :=
  { deps := t.indexes.filterMap (fun idx =>
      let ic := (idx.cols.map OrderingCol.col).toFinset
      if idx.unique ∧ ic ⊆ t.cols ∧ t.cols \ ic ≠ ∅ then
        some ⟨ic, t.cols \ ic, !idx.nullable⟩
      else none)
    eqs := [] }

/-- Modelled from the spec: the missing Scan ordering rule — one candidate
ordering per index, given by the index's column order and directions
truncated to visible columns; if the taken columns already provably form a
strict key the ordering stops there, otherwise the distinguishing
row-identifier column is appended when available. -/
def scanIndexOrd (t : TableDef) (fd : FDSet) (idx : IndexDef) : Ordering :=
  let taken := idx.cols.takeWhile (fun oc => decide (oc.col ∈ t.cols))
  if t.cols ⊆ closure fd (taken.map OrderingCol.col).toFinset then taken
  else
    match t.rowid with
    | some r => if r ∈ t.cols then taken ++ [⟨r, true⟩] else taken
    | none => taken

/-- Modelled from the spec: the missing Scan build rule. -/
def scanProps (t : TableDef) : RelProps :=
  let fd := scanFD t
  { outputCols := t.cols
    fd := fd
    key := deriveKey fd t.cols
    orderings := dedupOrderings fd
      ((t.indexes.map (scanIndexOrd t fd)).filter (fun o => !o.isEmpty)) }

/-- Modelled from the spec: the missing FD projection — a dependency survives
when its determinant stays visible, its dependent set restricted to the
visible columns; equivalences survive when both columns stay visible. -/
def projectFD (fd : FDSet) (cols : ColumnSet) : FDSet :=
  { deps := fd.deps.filterMap (fun d =>
      if d.det ⊆ cols ∧ d.dep ∩ cols ≠ ∅ then
        some ⟨d.det, d.dep ∩ cols, d.strict⟩
      else none)
    eqs := fd.eqs.filter (fun p => decide (p.1 ∈ cols ∧ p.2 ∈ cols)) }

/-- Modelled from the spec: the missing per-ordering projection walk — keep
visible columns; rewrite a non-visible column onto a visible member of its
equivalence class; skip a non-visible column functionally determined by the
columns retained before it; otherwise truncate the ordering there. -/
def projectOrdAux (fd : FDSet) (cols : ColumnSet) : ColumnSet → Ordering → Ordering
  | _, [] => []
  | acc, oc :: rest =>
    if oc.col ∈ cols then oc :: projectOrdAux fd cols (insert oc.col acc) rest
    else
      let ec := equivClass fd oc.col ∩ cols
      if ec ≠ ∅ then
        let c := WithBot.unbot' oc.col ec.min
        ⟨c, oc.asc⟩ :: projectOrdAux fd cols (insert c acc) rest
      else if oc.col ∈ closure fd acc then projectOrdAux fd cols acc rest
      else []

/-- Projection of one ordering, starting from no retained columns. -/
def projectOrd (fd : FDSet) (cols : ColumnSet) (o : Ordering) : Ordering :=
  projectOrdAux fd cols ∅ o

/-- Modelled from the spec: the missing Project build rule — project the FD
set and the key, and project each parent ordering, discarding orderings that
become empty or duplicate another retained one. -/
def projectProps (cols : ColumnSet) (child : RelProps) : RelProps :=
  let out := cols ∩ child.outputCols
  let fd := projectFD child.fd out
  { outputCols := out
    fd := fd
    key := deriveKey fd out
    orderings := dedupOrderings fd
      ((child.orderings.map (projectOrd child.fd out)).filter (fun o => !o.isEmpty)) }

/-- Modelled from the spec: relabeling an ordering across one side of the
join's equality predicates, since the two columns of an equality are provably
equal in every output row. -/
def relabelOrd (eqs : List (Column × Column)) (o : Ordering) : Ordering :=
  o.map (fun oc =>
    match eqs.find? (fun p => p.1 == oc.col || p.2 == oc.col) with
    | some p => if p.1 == oc.col then ⟨p.2, oc.asc⟩ else ⟨p.1, oc.asc⟩
    | none => oc)

/-- Modelled from the spec: the missing Join build rule — both inputs'
dependencies combine, each equality predicate adds an equivalence, both
inputs' orderings pass through, and each ordering is additionally registered
relabeled across the equality predicates before deduplication. -/
def joinProps (eqs : List (Column × Column)) (l r : RelProps) : RelProps :=
  let out := l.outputCols ∪ r.outputCols
  let fd : FDSet := ⟨l.fd.deps ++ r.fd.deps, l.fd.eqs ++ r.fd.eqs ++ eqs⟩
  { outputCols := out
    fd := fd
    key := deriveKey fd out
    orderings := dedupOrderings fd
      (l.orderings ++ r.orderings ++
        (l.orderings ++ r.orderings).map (relabelOrd eqs)) }

/-- The ascending ordering on a column set, in canonical ascending-id order. -/
def ascOrd (cols : ColumnSet) : Ordering :=
  (cols.sort (· ≤ ·)).map (fun c => ⟨c, true⟩)

/-- Whether a required ordering is already provided by one of the available
orderings (the requirement is an initial segment of a provided order). -/
def ordSatisfiedBy (required : Ordering) (available : OrderingSet) : Bool :=
  available.any (fun o => leadsList required o)

/-- Modelled from the spec: the missing GroupBy build rule — the grouping
columns strictly determine the aggregate output column, the grouping columns
become the key, and the grouping ordering is exposed when the input provides
the internal ordering requirement without an explicit sort. -/
def groupByProps (gcols : ColumnSet) (aggCol : Column) (internalOrd : Ordering)
    (child : RelProps) : RelProps :=
  let out := gcols ∪ {aggCol}
  let pfd := projectFD child.fd gcols
  let fd : FDSet := ⟨pfd.deps ++ [⟨gcols, {aggCol}, true⟩], pfd.eqs⟩
  { outputCols := out
    fd := fd
    key := deriveKey fd out
    orderings := dedupOrderings fd
      (if ordSatisfiedBy internalOrd child.orderings then [ascOrd gcols] else []) }

/-- Modelled from the spec, constrained by the repository's opttester
expectations: the missing Sort build rule — the Sort node re-exposes its
input's interesting orderings; the imposed order is the node's physical
ordering property, recorded on the node itself. -/
def sortProps (child : RelProps) : RelProps :=
  { outputCols := child.outputCols
    fd := child.fd
    key := child.key
    orderings := dedupOrderings child.fd child.orderings }

/-- Modelled from the spec: the missing Limit build rule — the internal
ordering under which the operator executes passes through, together with any
input ordering extending it. -/
def limitProps (internal : Ordering) (child : RelProps) : RelProps :=
  { outputCols := child.outputCols
    fd := child.fd
    key := child.key
    orderings := dedupOrderings child.fd
      ([internal] ++ child.orderings.filter (fun o => leadsList internal o)) }

/-- A relational expression tree over the operators the derivation covers. -/
inductive RelExpr where
  | scan (t : TableDef)
  | project (cols : ColumnSet) (child : RelExpr)
  | join (eqs : List (Column × Column)) (left right : RelExpr)
  | groupBy (gcols : ColumnSet) (aggCol : Column) (internalOrd : Ordering)
      (child : RelExpr)
  | sort (imposed : Ordering) (child : RelExpr)
  | limit (internal : Ordering) (child : RelExpr)
deriving DecidableEq

/-- Modelled from the spec: the missing operator-properties builder — one
rule per operator kind, computed bottom-up from already-finalized child
properties. -/
def buildProps : RelExpr → RelProps
  | .scan t => scanProps t
  | .project cols c => projectProps cols (buildProps c)
  | .join eqs l r => joinProps eqs (buildProps l) (buildProps r)
  | .groupBy g a io c => groupByProps g a io (buildProps c)
  | .sort _ c => sortProps (buildProps c)
  | .limit io c => limitProps io (buildProps c)

/-- Whether a plan contains a Sort node. -/
def hasSortNode : RelExpr → Bool
  | .scan _ => false
  | .project _ c => hasSortNode c
  | .join _ l r => hasSortNode l || hasSortNode r
  | .groupBy _ _ _ c => hasSortNode c
  | .sort _ _ => true
  | .limit _ c => hasSortNode c

/-- Modelled from the spec: the enumeration-side fallback — an explicit sort
is inserted under a Limit exactly when no available input ordering already
satisfies the required order. -/
def planOrderByLimit (required : Ordering) (input : RelExpr) : RelExpr :=
  if ordSatisfiedBy required (buildProps input).orderings then
    RelExpr.limit required input
  else
    RelExpr.limit required (RelExpr.sort required input)

/-- Modelled from the spec: the enumeration-side fallback for GroupBy — an
explicit sort is inserted under the GroupBy exactly when no available input
ordering already satisfies the internal ordering requirement. -/
def planGroupBy (gcols : ColumnSet) (aggCol : Column) (internalOrd : Ordering)
    (input : RelExpr) : RelExpr :=
  if ordSatisfiedBy internalOrd (buildProps input).orderings then
    RelExpr.groupBy gcols aggCol internalOrd input
  else
    RelExpr.groupBy gcols aggCol internalOrd (RelExpr.sort internalOrd input)

/-- The table abc with columns a:1, b:2, c:3, a composite index on (a, b) and
a unique (nullable) index on (c), as scanned with only the three visible
columns. -/
def abcTable : TableDef :=
  { cols := {1, 2, 3}
    indexes :=
      [ ⟨[⟨1, true⟩, ⟨2, true⟩], false, true⟩
      , ⟨[⟨3, true⟩], true, true⟩ ]
    rowid := none }

/-- The table xyz with columns x:6, y:7, z:8, an index on (z) and a unique
(nullable) index on (x, y), as scanned with only the three visible columns. -/
def xyzTable : TableDef :=
  { cols := {6, 7, 8}
    indexes :=
      [ ⟨[⟨8, true⟩], false, true⟩
      , ⟨[⟨6, true⟩, ⟨7, true⟩], true, true⟩ ]
    rowid := none }

/-- The scan of abc restricted to columns a:1 and b:2 via the (a, b) index
(abc@secondary). -/
def abcSecondaryTable : TableDef :=
  { cols := {1, 2}
    indexes :=
      [ ⟨[⟨1, true⟩, ⟨2, true⟩], false, true⟩
      , ⟨[⟨3, true⟩], true, true⟩ ]
    rowid := none }

/-- C6: for every FDSet and every pair of ColumnSets X and Y with X a subset
of Y, closure(X) is a subset of closure(Y): the closure operation is
monotone in its argument. -/
theorem closure_monotone (fd : FDSet) (X Y : ColumnSet) (h : X ⊆ Y) :
    closure fd X ⊆ closure fd Y := by
  unfold closure
  rw [closureAux_eq_iterate, closureAux_eq_iterate]
  exact iterate_closureStep_mono _ _ _ h

/-- A concrete FD set used to witness closure monotonicity. -/
def fdWitC6 : FDSet := ⟨[⟨{1}, {2}, true⟩, ⟨{2, 4}, {5}, true⟩], [(2, 3)]⟩

theorem closure_monotone_witness :
    ({1} : ColumnSet) ⊆ {1, 4} ∧ closure fdWitC6 {1} ⊆ closure fdWitC6 {1, 4} :=
  ⟨by decide, closure_monotone fdWitC6 {1} {1, 4} (by decide)⟩

/-- C1: for the table with columns a:1, b:2, c:3, a composite index on
(a, b) and a unique index on (c), a full scan outputting a, b, c reports lax
key (1,2,3), the lax dependency (3)~~>(1,2), and exactly the interesting
orderings (+1,+2) and (+3). -/
theorem scan_abc_props :
    buildProps (.scan abcTable) =
      { outputCols := {1, 2, 3}
        fd := ⟨[⟨{3}, {1, 2}, false⟩], []⟩
        key := .laxKey {1, 2, 3}
        orderings := [[⟨1, true⟩, ⟨2, true⟩], [⟨3, true⟩]] } := by decide

/-- The equi-join of abc and xyz on the predicate a:1 = x:6. -/
def abcXyzJoin : RelExpr := .join [(1, 6)] (.scan abcTable) (.scan xyzTable)

/-- C2: the equi-join of abc and xyz on a = x retains exactly the orderings
(+1,+2), (+3), (+8), (+6,+7); every ordering of both inputs is in the join's
OrderingSet, and each input ordering relabeled across the equality predicate
is present up to the join's FD-aware subsumption (the relabeled form is
subsumed by a retained ordering, since a and x are equal in every output
row). -/
theorem join_orderings_relabeled :
    (buildProps abcXyzJoin).orderings =
      [[⟨1, true⟩, ⟨2, true⟩], [⟨3, true⟩], [⟨8, true⟩], [⟨6, true⟩, ⟨7, true⟩]]
    ∧ (∀ o ∈ (buildProps (.scan abcTable)).orderings ++
          (buildProps (.scan xyzTable)).orderings,
        o ∈ (buildProps abcXyzJoin).orderings)
    ∧ (∀ o ∈ (buildProps (.scan abcTable)).orderings ++
          (buildProps (.scan xyzTable)).orderings,
        ∃ r ∈ (buildProps abcXyzJoin).orderings,
          subsumed (buildProps abcXyzJoin).fd (relabelOrd [(1, 6)] o) r = true) := by
  decide

theorem join_orderings_relabeled_witness :
    ([⟨3, true⟩] : Ordering) ∈ (buildProps abcXyzJoin).orderings
    ∧ ∃ r ∈ (buildProps abcXyzJoin).orderings,
        subsumed (buildProps abcXyzJoin).fd
          (relabelOrd [(1, 6)] [⟨1, true⟩, ⟨2, true⟩]) r = true :=
  ⟨join_orderings_relabeled.2.1 [⟨3, true⟩] (by decide),
    join_orderings_relabeled.2.2 [⟨1, true⟩, ⟨2, true⟩] (by decide)⟩

/-- The plan for ORDER BY b LIMIT 10 over abc: the required order +2 is not
available from the scan, so a sort is inserted under the limit. -/
def orderByBLimitPlan : RelExpr := planOrderByLimit [⟨2, true⟩] (.scan abcTable)

/-- C3 counterexample: for ORDER BY b LIMIT 10 over abc a Sort node is
indeed inserted, but the Sort node's OrderingSet does not contain the newly
imposed ordering (+2), contradicting the claim that it holds both the
imposed order and the carried-forward orderings. -/
theorem sort_orderingset_missing_imposed :
    orderByBLimitPlan = .limit [⟨2, true⟩] (.sort [⟨2, true⟩] (.scan abcTable))
    ∧ [⟨2, true⟩] ∉ (buildProps (.sort [⟨2, true⟩] (.scan abcTable))).orderings := by
  decide

/-- C3 amended: for ORDER BY b LIMIT 10 over abc, a Sort node is inserted;
the Sort node's OrderingSet consists of the interesting orderings carried
forward from its input scan, (+1,+2) and (+3); the newly imposed ordering
(+2) is recorded as the Sort's imposed physical ordering on the node itself
and becomes the interesting ordering of the Limit above it, not an element
of the Sort's OrderingSet. -/
theorem sort_orderingset_amended :
    orderByBLimitPlan = .limit [⟨2, true⟩] (.sort [⟨2, true⟩] (.scan abcTable))
    ∧ (buildProps (.sort [⟨2, true⟩] (.scan abcTable))).orderings =
        [[⟨1, true⟩, ⟨2, true⟩], [⟨3, true⟩]]
    ∧ (buildProps orderByBLimitPlan).orderings = [[⟨2, true⟩]] := by decide

/-- C4 counterexample: projecting a relation ordered by (+1,+2) with an
empty FD set onto the single column 1 keeps the ordering with column 2
elided, although column 2 is determined — strictly or laxly — by nothing:
the claimed "elided only when functionally determined by the columns still
present" rule is violated. -/
theorem project_elides_undetermined_column :
    (buildProps (.project {1} (.scan abcSecondaryTable))).orderings = [[⟨1, true⟩]]
    ∧ (buildProps (.scan abcSecondaryTable)).fd.deps = []
    ∧ 2 ∉ closure (buildProps (.scan abcSecondaryTable)).fd {1}
    ∧ 2 ∉ laxClosure (buildProps (.scan abcSecondaryTable)).fd {1} := by decide

/-- C4 amended: Project walks each parent ordering left to right, keeping
output columns, rewriting a non-output column onto an equivalent output
column, skipping a non-output column only when it is functionally determined
by the columns retained before it, and truncating the ordering at the first
non-output column that is neither rewritable nor so determined; empty and
duplicate results are discarded. Projecting the abc scan to (a, c) yields
lax key (1,3), dependency (3)~~>(1), orderings (+1) and (+3) (with b
truncated from (+1,+2)); projecting to (b, c) yields only (+3), since a is
neither an output nor determined, so (+1,+2) truncates to empty. -/
theorem project_orderings_amended :
    buildProps (.project {1, 3} (.scan abcTable)) =
      { outputCols := {1, 3}
        fd := ⟨[⟨{3}, {1}, false⟩], []⟩
        key := .laxKey {1, 3}
        orderings := [[⟨1, true⟩], [⟨3, true⟩]] }
    ∧ buildProps (.project {2, 3} (.scan abcTable)) =
      { outputCols := {2, 3}
        fd := ⟨[⟨{3}, {2}, false⟩], []⟩
        key := .laxKey {2, 3}
        orderings := [[⟨3, true⟩]] }
    ∧ ∀ (fd : FDSet) (cols acc : ColumnSet) (oc : OrderingCol) (rest : Ordering),
        oc.col ∉ cols → equivClass fd oc.col ∩ cols = ∅ →
        oc.col ∉ closure fd acc →
        projectOrdAux fd cols acc (oc :: rest) = [] := by
  refine ⟨by decide, by decide, ?_⟩
  intro fd cols acc oc rest h1 h2 h3
  simp [projectOrdAux, h1, h2, h3]

theorem project_orderings_amended_witness :
    (5 ∉ (∅ : ColumnSet))
    ∧ equivClass ⟨[], []⟩ 5 ∩ (∅ : ColumnSet) = ∅
    ∧ 5 ∉ closure ⟨[], []⟩ (∅ : ColumnSet)
    ∧ projectOrdAux ⟨[], []⟩ ∅ ∅ [⟨5, true⟩] = [] :=
  ⟨by decide, by decide, by decide,
    project_orderings_amended.2.2 ⟨[], []⟩ ∅ ∅ ⟨5, true⟩ []
      (by decide) (by decide) (by decide)⟩

/-- The GroupBy plan for grouping by a over the (a, b)-ordered scan with an
aggregate over b, producing output column 6. -/
def groupByAPlan : RelExpr := planGroupBy {1} 6 [⟨1, true⟩] (.scan abcSecondaryTable)

/-- C5: grouping by a over the (a, b)-ordered scan of abc with an aggregate
over b: the internal ordering requirement +1 is satisfied directly by the
scan's native order, so no Sort node appears in the plan; the resulting key
is (1) and the grouping column strictly determines the aggregate output
column 6. -/
theorem groupby_scan_no_sort :
    groupByAPlan = .groupBy {1} 6 [⟨1, true⟩] (.scan abcSecondaryTable)
    ∧ hasSortNode groupByAPlan = false
    ∧ ordSatisfiedBy [⟨1, true⟩] (buildProps (.scan abcSecondaryTable)).orderings = true
    ∧ (buildProps groupByAPlan).key = .strictKey {1}
    ∧ (buildProps groupByAPlan).fd.deps = [⟨{1}, {6}, true⟩] := by decide

/-- C7: every OrderingSet produced by the derivation is non-redundant: no
two retained orderings remain where one is subsumed by the other under the
node's FDSet, i.e. where, after eliding FD-implied and constant columns from
both, one ordering's columns all appear in the other at the same relative
ranks. -/
theorem orderingset_nonredundant (e : RelExpr) :
    NonRedundant (buildProps e).fd (buildProps e).orderings := by
  cases e <;>
    simp only [buildProps, scanProps, projectProps, joinProps, groupByProps,
      sortProps, limitProps] <;>
    exact dedupOrderings_nonredundant _ _

end OptProps

namespace Settings

/-- Modelled from the spec: one registered setting of the missing external
settings registry code: its key, its declared type tag, and its registered
(encoded) default value. -/
structure Setting where
  key : String
  typ : String
  defaultVal : String
deriving DecidableEq

/-- The process-wide registration table. -/
abbrev Registry := List Setting

/-- Stored (encoded) values, newest first; earlier entries shadow later
ones. -/
abbrev Values := List (String × String)

/-- Look a setting up by key in the registry. -/
def lookupSetting (reg : Registry) (k : String) : Option Setting :=
  reg.find? (fun s => s.key == k)

/-- Look a stored value up by key. -/
def lookupVal (vals : Values) (k : String) : Option String :=
  (vals.find? (fun p => p.1 == k)).map (fun p => p.2)

/-- Store a value for a key, shadowing any previous entry. -/
def storeVal (vals : Values) (k v : String) : Values := (k, v) :: vals

/-- Observable value of a setting: its stored value if one exists, else its
registered default; an unregistered key has no observable value. -/
def getSetting (reg : Registry) (vals : Values) (k : String) : Option String :=
  match lookupSetting reg k with
  | none => none
  | some s => some ((lookupVal vals k).getD s.defaultVal)

/-- Modelled from the spec: the boolean encoding of the missing settings
code. -/
def EncodeBool (b : Bool) : String := if b then "true" else "false"

/-- Modelled from the spec: the integer encoding of the missing settings
code. -/
def EncodeInt (n : Nat) : String := toString n

/-- Modelled from the spec: whether an encoded value parses for a declared
type tag ("b" booleans, "i" decimal integers; other tags accept any
string). -/
def validEncoding (typ v : String) : Bool :=
  match typ with
  | "b" => v == "true" || v == "false"
  | "i" => !v.toList.isEmpty && v.toList.all Char.isDigit
  | _ => true

/-- An in-progress update pass: the current stored values and the keys
included in the pass so far. -/
structure Updater where
  vals : Values
  seen : List String
deriving DecidableEq

/-- A fresh update pass over the current stored values. -/
def makeUpdater (vals : Values) : Updater := ⟨vals, []⟩

/-- Modelled from the spec and the repository's settings test: Updater.Set —
an unknown key errors without marking anything; a registered key is marked
as included in the pass even when the value is then rejected for a declared
type mismatch or a parse failure, in which case the stored value stays
unchanged; otherwise the new value is stored. -/
def updSet (reg : Registry) (u : Updater) (k v vt : String) :
    Updater × Option String :=
  match lookupSetting reg k with
  | none => (u, some "unknown setting")
  | some s =>
    if vt ≠ s.typ then (⟨u.vals, k :: u.seen⟩, some "type mismatch")
    else if !(validEncoding s.typ v) then (⟨u.vals, k :: u.seen⟩, some "parse failure")
    else (⟨storeVal u.vals k v, k :: u.seen⟩, none)

/-- Modelled from the spec: Updater.Done — every registered setting whose
key was not included in the pass reverts to its registered default value. -/
def updDone (reg : Registry) (u : Updater) : Values :=
  reg.foldl
    (fun vs s => if s.key ∈ u.seen then vs else storeVal vs s.key s.defaultVal)
    u.vals

theorem lookupVal_store_self (vals : Values) (k v : String) :
    lookupVal (storeVal vals k v) k = some v := by
  simp [lookupVal, storeVal, List.find?_cons_of_pos]

theorem lookupVal_store_ne (vals : Values) (k v k' : String) (h : k' ≠ k) :
    lookupVal (storeVal vals k v) k' = lookupVal vals k' := by
  simp only [lookupVal, storeVal]
  rw [List.find?_cons_of_neg]
  simp [h.symm]

theorem lookupVal_foldDone_of_seen (reg : Registry) (seen : List String)
    (vs : Values) (k : String) (hk : k ∈ seen) :
    lookupVal
      (reg.foldl
        (fun vs s => if s.key ∈ seen then vs else storeVal vs s.key s.defaultVal)
        vs) k = lookupVal vs k := by
  induction reg generalizing vs with
  | nil => rfl
  | cons s rest ih =>
      simp only [List.foldl_cons]
      by_cases h : s.key ∈ seen
      · rw [if_pos h]; exact ih _
      · rw [if_neg h, ih _, lookupVal_store_ne]
        intro he
        exact h (he ▸ hk)

theorem lookupVal_foldDone_notmem (rest : Registry) (seen : List String)
    (vs : Values) (k : String) (hk : k ∉ rest.map Setting.key) :
    lookupVal
      (rest.foldl
        (fun vs s => if s.key ∈ seen then vs else storeVal vs s.key s.defaultVal)
        vs) k = lookupVal vs k := by
  induction rest generalizing vs with
  | nil => rfl
  | cons t r ih =>
      simp only [List.map_cons, List.mem_cons, not_or] at hk
      simp only [List.foldl_cons]
      by_cases h : t.key ∈ seen
      · rw [if_pos h]; exact ih _ hk.2
      · rw [if_neg h, ih _ hk.2, lookupVal_store_ne _ _ _ _ hk.1]

theorem lookupVal_foldDone_unseen (reg : Registry) (seen : List String)
    (vs : Values) (s : Setting) (hs : s ∈ reg) (hns : s.key ∉ seen)
    (hnd : (reg.map Setting.key).Nodup) :
    lookupVal
      (reg.foldl
        (fun vs t => if t.key ∈ seen then vs else storeVal vs t.key t.defaultVal)
        vs) s.key = some s.defaultVal := by
  induction reg generalizing vs with
  | nil => cases hs
  | cons t rest ih =>
      simp only [List.map_cons, List.nodup_cons] at hnd
      simp only [List.foldl_cons]
      rcases List.mem_cons.1 hs with h | h
      · subst h
        rw [if_neg hns, lookupVal_foldDone_notmem rest seen _ s.key hnd.1,
          lookupVal_store_self]
      · by_cases ht : t.key ∈ seen
        · rw [if_pos ht]; exact ih _ h hnd.2
        · rw [if_neg ht]; exact ih _ h hnd.2

theorem lookupSetting_mem (reg : Registry) (s : Setting) (hs : s ∈ reg)
    (hnd : (reg.map Setting.key).Nodup) : lookupSetting reg s.key = some s := by
  induction reg with
  | nil => cases hs
  | cons t rest ih =>
      simp only [List.map_cons, List.nodup_cons] at hnd
      rcases List.mem_cons.1 hs with h | h
      · subst h
        simp [lookupSetting, List.find?_cons_of_pos]
      · have hne : t.key ≠ s.key := fun he =>
          hnd.1 (he ▸ List.mem_map_of_mem Setting.key h)
        simp only [lookupSetting]
        rw [List.find?_cons_of_neg]
        · exact ih h hnd.2
        · simp [hne]

/-- C8: completing an update pass reverts every registered setting whose key
was not included in the pass to its registered default value, while a
setting set successfully in the pass takes its new value. -/
theorem updater_done_semantics (reg : Registry)
    (hnd : (reg.map Setting.key).Nodup) :
    (∀ (u : Updater) (s : Setting), s ∈ reg → s.key ∉ u.seen →
        getSetting reg (updDone reg u) s.key = some s.defaultVal)
    ∧ (∀ (u : Updater) (k v vt : String) (u' : Updater),
        updSet reg u k v vt = (u', none) →
        getSetting reg (updDone reg u') k = some v) := by
  constructor
  · intro u s hs hns
    rw [getSetting, lookupSetting_mem reg s hs hnd, updDone,
      lookupVal_foldDone_unseen reg u.seen u.vals s hs hns hnd]
    rfl
  · intro u k v vt u' h
    rw [updSet] at h
    cases hk : lookupSetting reg k with
    | none => rw [hk] at h; cases h
    | some s =>
        rw [hk] at h
        dsimp only at h
        by_cases h1 : vt ≠ s.typ
        · rw [if_pos h1] at h; cases h
        · rw [if_neg h1] at h
          by_cases h2 : !(validEncoding s.typ v)
          · rw [if_pos h2] at h; cases h
          · rw [if_neg h2] at h
            have hu : u' = ⟨storeVal u.vals k v, k :: u.seen⟩ :=
              (Prod.mk.injEq _ _ _ _ ▸ h).1.symm
            subst hu
            rw [getSetting, hk, updDone,
              lookupVal_foldDone_of_seen reg _ _ k (List.mem_cons_self _ _),
              lookupVal_store_self]
            rfl

/-- The registry exercised by the repository's settings test, restricted to
the settings the revert-to-default scenario touches. -/
def regWit : Registry :=
  [ ⟨"bool.f", "b", "false"⟩
  , ⟨"i.1", "i", "0"⟩
  , ⟨"i.2", "i", "5"⟩
  , ⟨"str.bar", "s", "bar"⟩ ]

theorem updater_done_semantics_witness :
    getSetting regWit (updDone regWit ⟨[("bool.f", "true")], []⟩) "bool.f" =
      some "false"
    ∧ getSetting regWit (updDone regWit ⟨[("i.2", "7")], ["i.2"]⟩) "i.2" =
      some "7" :=
  ⟨(updater_done_semantics regWit (by decide)).1 ⟨[("bool.f", "true")], []⟩
      ⟨"bool.f", "b", "false"⟩ (by decide) (by decide),
    (updater_done_semantics regWit (by decide)).2 ⟨[], []⟩ "i.2" "7" "i"
      ⟨[("i.2", "7")], ["i.2"]⟩ (by decide)⟩

/-- C10: if Updater.Set on a registered setting returns an error — a
declared type mismatch or a parse failure — then after Updater.Done the
setting's observable value equals its value from before the failed update:
the failed update has no effect. -/
theorem failed_set_preserves_value (reg : Registry) (u : Updater)
    (k v vt : String) (u' : Updater) (e : String) (s : Setting)
    (hreg : lookupSetting reg k = some s)
    (h : updSet reg u k v vt = (u', some e)) :
    getSetting reg (updDone reg u') k = getSetting reg u.vals k := by
  rw [updSet, hreg] at h
  dsimp only at h
  have hu : u' = ⟨u.vals, k :: u.seen⟩ := by
    by_cases h1 : vt ≠ s.typ
    · rw [if_pos h1] at h
      exact (Prod.mk.injEq _ _ _ _ ▸ h).1.symm
    · rw [if_neg h1] at h
      by_cases h2 : !(validEncoding s.typ v)
      · rw [if_pos h2] at h
        exact (Prod.mk.injEq _ _ _ _ ▸ h).1.symm
      · rw [if_neg h2] at h
        cases (Prod.mk.injEq _ _ _ _ ▸ h).2
  subst hu
  rw [getSetting, getSetting, hreg, updDone,
    lookupVal_foldDone_of_seen reg _ _ k (List.mem_cons_self _ _)]

theorem failed_set_preserves_value_witness :
    updSet regWit ⟨[("i.2", "9")], []⟩ "i.2" "false" "b" =
      (⟨[("i.2", "9")], ["i.2"]⟩, some "type mismatch")
    ∧ getSetting regWit (updDone regWit ⟨[("i.2", "9")], ["i.2"]⟩) "i.2" =
        getSetting regWit [("i.2", "9")] "i.2"
    ∧ getSetting regWit [("i.2", "9")] "i.2" = some "9" :=
  ⟨by decide,
    failed_set_preserves_value regWit ⟨[("i.2", "9")], []⟩ "i.2" "false" "b"
      ⟨[("i.2", "9")], ["i.2"]⟩ "type mismatch" ⟨"i.2", "i", "5"⟩
      (by decide) (by decide),
    by decide⟩

end Settings

namespace Tree

/-- The placement clause for an ALTER TYPE ADD VALUE command
([BEFORE | AFTER] value). -/
structure AlterTypeAddValuePlacement where
  Before : Bool
  ExistingVal : String

/-- An ALTER TYPE ADD VALUE command. -/
structure AlterTypeAddValue where
  NewVal : String
  IfNotExists : Bool
  Placement : Option AlterTypeAddValuePlacement

/-- The formatting context: the string buffer being appended to. -/
structure FmtCtx where
  Buffer : String

/-- FmtCtx.WriteString appends to the buffer. -/
def writeString (ctx : FmtCtx) (s : String) : FmtCtx := ⟨ctx.Buffer ++ s⟩

/-- AlterTypeAddValue.Format, mirroring the Go control flow statement by
statement; `enc` stands for lex.EncodeSQLString, which appends the
SQL-string encoding of its argument to the buffer. -/
def AlterTypeAddValue.Format (enc : String → String)
    (node : AlterTypeAddValue) (ctx : FmtCtx) : FmtCtx :=
  let ctx := writeString ctx " ADD VALUE "
  let ctx := if node.IfNotExists then writeString ctx "IF NOT EXISTS " else ctx
  let ctx : FmtCtx := ⟨ctx.Buffer ++ enc node.NewVal⟩
  match node.Placement with
  | none => ctx
  | some p =>
    let ctx :=
      if p.Before then writeString ctx " BEFORE " else writeString ctx " AFTER "
    ⟨ctx.Buffer ++ enc p.ExistingVal⟩

/-- C9: Format writes exactly " ADD VALUE ", then "IF NOT EXISTS " if and
only if IfNotExists is true, then the SQL-string-encoded NewVal, and then,
if and only if Placement is non-nil, " BEFORE " when Placement.Before is
true or " AFTER " otherwise, followed by the SQL-string-encoded
ExistingVal — all appended after the buffer's prior contents. -/
theorem alterTypeAddValue_format (enc : String → String)
    (node : AlterTypeAddValue) (ctx : FmtCtx) :
    (AlterTypeAddValue.Format enc node ctx).Buffer =
      ctx.Buffer ++ " ADD VALUE "
        ++ (if node.IfNotExists then "IF NOT EXISTS " else "")
        ++ enc node.NewVal
        ++ (match node.Placement with
            | none => ""
            | some p =>
              (if p.Before then " BEFORE " else " AFTER ") ++ enc p.ExistingVal) := by
  rcases node with ⟨nv, ine, pl⟩
  rcases pl with _ | ⟨b, ev⟩ <;> cases ine <;> (try cases b) <;>
    simp [AlterTypeAddValue.Format, writeString, String.append_assoc]

end Tree
